import Mathlib

/-!
Verification of the client-side entity-state synchronization layer of the
blossomer_gtm_api frontend: the response normalizers and local-storage
services (`accountService.ts`, `campaignService.ts`), the auth-transition
cache/draft wipe and endpoint routing (`auth.ts`), and the rate-limit
header parsing.  JavaScript runtime values are embedded as the `JVal`
type; JS objects become insertion-ordered association lists, so that the
semantics of object spread (`{...a, ...b}`: later keys overwrite in
place, new keys append) is captured exactly.
-/

/-- A JavaScript runtime value: `undefined` is the JS undefined value, `obj`
holds insertion-ordered key/value entries (a JS object never has
duplicate keys; operations below preserve that), numbers are restricted
to integers (no float arithmetic is performed by the modelled code). -/
inductive JVal where
  | null : JVal
  | undefined : JVal
  | bool : Bool → JVal
  | num : Int → JVal
  | str : String → JVal
  | arr : List JVal → JVal
  | obj : List (String × JVal) → JVal

/-- JS property assignment `o[k] = v` on an object's entry list: if the
key is present its value is updated in place, otherwise the new entry is
appended at the end. -/
def setKey : List (String × JVal) → String → JVal → List (String × JVal)
  | [], k, v => [(k, v)]
  | (k₀, v₀) :: rest, k, v =>
    if k₀ == k then (k₀, v) :: rest else (k₀, v₀) :: setKey rest k v

/-- JS object spread `{...a, ...b}`: every entry of `b` is assigned onto
`a` in order. -/
def spread (a b : List (String × JVal)) : List (String × JVal) :=
  b.foldl (fun acc p => setKey acc p.1 p.2) a

/-- First value stored under a key, if any. -/
def lookupKey : List (String × JVal) → String → Option JVal
  | [], _ => none
  | (k₀, v₀) :: rest, k => if k₀ == k then some v₀ else lookupKey rest k

/-- The keys of an entry list, in order. -/
def keysOf (l : List (String × JVal)) : List String := l.map Prod.fst

/-- The enumerable own entries a JS value contributes under object
spread: objects spread their entries, strings and arrays their indexed
elements, every other value spreads nothing. -/
def entriesOf : JVal → List (String × JVal)
  | .obj kvs => kvs
  | .arr xs => (xs.enum).map fun p => (toString p.1, p.2)
  | .str s => (s.data.enum).map fun p => (toString p.1, .str (String.mk [p.2]))
  | _ => []

/-- JS property read `o.k`: `undefined` when the key is absent or the
value is not an object. -/
def getField (v : JVal) (k : String) : JVal :=
  match v with
  | .obj kvs => (lookupKey kvs k).getD .undefined
  | _ => .undefined

/-- JS truthiness of a value. -/
def jsTruthy : JVal → Bool
  | .null => false
  | .undefined => false
  | .bool b => b
  | .num n => n != 0
  | .str s => s != ""
  | .arr _ => true
  | .obj _ => true

/-- JS `a || b` restricted to its use sites here. -/
def jsOr (a b : JVal) : JVal := if jsTruthy a then a else b

/-- Whether a value is an object. -/
def isObj : JVal → Bool
  | .obj _ => true
  | _ => false

/-- The lowercase ASCII letters paired with their uppercase forms. -/
def lowerUpper : List (Char × Char) :=
  [('a', 'A'), ('b', 'B'), ('c', 'C'), ('d', 'D'), ('e', 'E'), ('f', 'F'),
   ('g', 'G'), ('h', 'H'), ('i', 'I'), ('j', 'J'), ('k', 'K'), ('l', 'L'),
   ('m', 'M'), ('n', 'N'), ('o', 'O'), ('p', 'P'), ('q', 'Q'), ('r', 'R'),
   ('s', 'S'), ('t', 'T'), ('u', 'U'), ('v', 'V'), ('w', 'W'), ('x', 'X'),
   ('y', 'Y'), ('z', 'Z')]

/-- Whether a character is a lowercase ASCII letter. -/
def isLowerAscii (c : Char) : Bool := lowerUpper.any fun p => p.1 == c

/-- Uppercase a lowercase ASCII letter; every other character is
returned unchanged. -/
def upChar (c : Char) : Char :=
  ((lowerUpper.find? fun p => p.1 == c).map Prod.snd).getD c

/-- Modelled from the spec: the Key Normalizer's key rewriting on one
key (`lib/utils.ts` is not among the provided sources).  A `snake_case`
key is rewritten to `camelCase` by replacing each underscore that is
immediately followed by a lowercase letter with that letter's uppercase
form; leading, trailing and doubled underscores are left as they stand
(the spec's best-effort behaviour), and keys already in camelCase are
unchanged. -/
def snakeToCamelChars : List Char → List Char
  | [] => []
  | [c] => [c]
  | a :: b :: rest =>
    if a == '_' && isLowerAscii b then upChar b :: snakeToCamelChars rest
    else a :: snakeToCamelChars (b :: rest)

/-- Modelled from the spec: key rewriting lifted to strings. -/
def snakeToCamel (s : String) : String := String.mk (snakeToCamelChars s.data)

mutual

/-- Modelled from the spec: the Key Normalizer `transformKeysToCamelCase`
(`lib/utils.ts` is not among the provided sources).  It produces a deep
copy in which every mapping key is rewritten from snake_case to
camelCase, list elements are processed recursively, and scalars pass
through unchanged; the rebuilt object is formed by assigning the
converted entries in order, so colliding converted keys collapse the
way JS object assignment does. -/
def transformKeysToCamelCase : JVal → JVal
  | .obj kvs => .obj (transEntries kvs [])
  | .arr xs => .arr (transList xs)
  | v => v

/-- Recursive key normalization of the elements of a JS array. -/
def transList : List JVal → List JVal
  | [] => []
  | x :: xs => transformKeysToCamelCase x :: transList xs

/-- Key normalization of an object's entries, assigning each converted
entry onto the accumulator in order. -/
def transEntries : List (String × JVal) → List (String × JVal) → List (String × JVal)
  | [], acc => acc
  | (k, v) :: rest, acc =>
    transEntries rest (setKey acc (snakeToCamel k) (transformKeysToCamelCase v))

end

/-- `normalizePersonaResponse` from `accountService.ts` (persona CRUD
section): `data = transformKeysToCamelCase(persona.data || {})` followed
by `{ ...persona, ...data, data }`. -/
def normalizePersonaResponse (persona : JVal) : JVal :=
  let data := transformKeysToCamelCase (jsOr (getField persona "data") (.obj []))
  .obj (setKey (spread (entriesOf persona) (entriesOf data)) "data" data)

/-- `normalizeCampaignResponse` from `campaignService.ts`:
`data = transformKeysToCamelCase(campaign.data || {})` followed by
`{ ...campaign, ...data, data, type: campaign.type }`. -/
def normalizeCampaignResponse (campaign : JVal) : JVal :=
  let data := transformKeysToCamelCase (jsOr (getField campaign "data") (.obj []))
  .obj (setKey (setKey (spread (entriesOf campaign) (entriesOf data)) "data" data)
    "type" (getField campaign "type"))

/-- A well-formed entity as the spec's data model describes one: a JS
object (whose keys, as for every JS runtime object, are distinct) whose
`data` field, when present and truthy, is a nested mapping. -/
def wellFormedEntity (x : JVal) : Prop :=
  isObj x = true ∧ (keysOf (entriesOf x)).Nodup ∧
    isObj (jsOr (getField x "data") (.obj [])) = true

instance (x : JVal) : Decidable (wellFormedEntity x) := by
  unfold wellFormedEntity; infer_instance

example : normalizePersonaResponse (.obj [("id", .str "1"),
    ("data", .obj [("target_persona_name", .str "VP Sales")])]) =
    .obj [("id", .str "1"),
      ("data", .obj [("targetPersonaName", .str "VP Sales")]),
      ("targetPersonaName", .str "VP Sales")] := rfl

/-- A stored persona record (`TargetPersonaResponse`): its `id` plus the
rest of its payload, which the storage operations never inspect. -/
structure PersonaRec where
  id : String
  payload : JVal

/-- A stored target account (`TargetAccount`): `id`, `name`, an optional
persona list (`personas?:` in the TS type) and the rest of its payload. -/
structure TargetAccount where
  id : String
  name : String
  personas : Option (List PersonaRec)
  payload : JVal

/-- `saveTargetAccount` from `accountService.ts`, acting on the parsed
list read from the `target_accounts` key of durable storage: `findIndex`
by id, replace in place when found, push otherwise, then write back.
The written list is the returned value. -/
def saveTargetAccount (store : List TargetAccount) (account : TargetAccount) :
    List TargetAccount :=
  match store.findIdx? fun p => p.id == account.id with
  | some i => store.set i account
  | none => store ++ [account]

/-- `deleteTargetAccount` from `accountService.ts`: keep the entries
whose id differs, write back. -/
def deleteTargetAccount (store : List TargetAccount) (id : String) :
    List TargetAccount :=
  store.filter fun p => p.id != id

/-- `getPersonasForTargetAccount` from `accountService.ts`:
`account?.personas || []` for the first account matching the id. -/
def getPersonasForTargetAccount (store : List TargetAccount) (accountId : String) :
    List PersonaRec :=
  match store.find? fun p => p.id == accountId with
  | none => []
  | some account => account.personas.getD []

/-- `updatePersonaForTargetAccount` from `accountService.ts`: find the
account by id (`findIndex` then index, i.e. the first match), return
early when the account, its persona list, or the persona id is missing
— in those cases nothing is written, which `none` records.  On the
success path the persona is replaced in place and the modified account
is passed to `saveTargetAccount`; `some` carries the written list. -/
def updatePersonaForTargetAccount (store : List TargetAccount)
    (accountId : String) (persona : PersonaRec) : Option (List TargetAccount) :=
  match store.find? fun p => p.id == accountId with
  | none => none
  | some account =>
    match account.personas with
    | none => none
    | some personas =>
      match personas.findIdx? fun q => q.id == persona.id with
      | none => none
      | some pidx =>
        some (saveTargetAccount store
          { account with personas := some (personas.set pidx persona) })

/-- `UserInfo` from `auth.ts` (the fields the modelled code reads). -/
structure UserInfo where
  user_id : String
  email : String
  name : Option String

/-- `AuthState` from `auth.ts`. -/
structure AuthState where
  isAuthenticated : Bool
  token : Option String
  userInfo : Option UserInfo

/-- JS double-negation truthiness of a `string | null` value: `null` and
the empty string are falsy. -/
def strTruthy : Option String → Bool
  | some s => s != ""
  | none => false

/-- `shouldUseAuthenticatedEndpoints` from `auth.ts`:
`!!authState.isAuthenticated && !!authState.token`, reading the global
auth state, which is passed here explicitly. -/
def shouldUseAuthenticatedEndpoints (s : AuthState) : Bool :=
  s.isAuthenticated && strTruthy s.token

/-- `getApiBasePath` from `auth.ts`. -/
def getApiBasePath (s : AuthState) : String :=
  if shouldUseAuthenticatedEndpoints s then "/api" else "/demo"

/-- The Draft Manager's persistent store: entity kind mapped to the
drafts of that kind. -/
abbrev DraftStore : Type := List (String × List JVal)

/-- The React Query cache: stored query entries keyed by query key, plus
the list of keys explicitly invalidated since the cache was last built. -/
structure QueryCache where
  entries : List (List String × JVal)
  invalidated : List (List String)

/-- `queryClient.clear()` of the cache client library: removes every
stored entry (and all bookkeeping) from the cache. -/
def clearCache (_ : QueryCache) : QueryCache := ⟨[], []⟩

/-- `queryClient.invalidateQueries(key)` of the cache client library:
marks the matching entries stale; recorded here as the invalidated key. -/
def invalidateQueries (c : QueryCache) (key : List String) : QueryCache :=
  { c with invalidated := c.invalidated ++ [key] }

/-- Modelled from the spec: `DraftManager.clearDraftsOnAuthChange`
(`draftManager.ts` is not among the provided sources).  Drafts are
cleared on a transition in either direction — from unauthenticated to
authenticated and from authenticated to unauthenticated — and a
same-state call is a no-op.  With the two flags the caller passes, an
actual flip is exactly `wasUnauthenticated == isNowAuthenticated`. -/
def clearDraftsOnAuthChange (wasUnauthenticated isNowAuthenticated : Bool)
    (ds : DraftStore) : DraftStore :=
  if wasUnauthenticated == isNowAuthenticated then [] else ds

/-- The auth-change effect of `useAuthState` in `auth.ts`: with
`wasUnauthenticated = !previous.isAuthenticated` and
`isNowAuthenticated = current.isAuthenticated`, when
`wasUnauthenticated !== !current.isAuthenticated` it clears the drafts
via the Draft Manager, clears the whole query cache, and invalidates the
`['company']` and `['companies']` keys; in every case the previous-state
ref is then set to the current state (returned as the last component). -/
def authChangeEffect (prev curr : AuthState) (ds : DraftStore) (qc : QueryCache) :
    DraftStore × QueryCache × AuthState :=
  let wasUnauthenticated := !prev.isAuthenticated
  let isNowAuthenticated := curr.isAuthenticated
  if wasUnauthenticated != !curr.isAuthenticated then
    let ds2 := clearDraftsOnAuthChange wasUnauthenticated isNowAuthenticated ds
    let qc2 := invalidateQueries (invalidateQueries (clearCache qc) ["company"]) ["companies"]
    (ds2, qc2, curr)
  else (ds, qc, curr)

/-- The value of a nonempty run of decimal digits. -/
def decimalValue (ds : List Char) : Nat :=
  ds.foldl (fun a c => a * 10 + (c.toNat - 48)) 0

/-- The longest leading run of decimal digits, as a number; `none` when
there is none. -/
def leadingNat (cs : List Char) : Option Nat :=
  match cs.takeWhile Char.isDigit with
  | [] => none
  | ds => some (decimalValue ds)

/-- The JS builtin `parseInt(s, 10)`: skip leading whitespace, accept an
optional sign, read the leading decimal digits; `none` models `NaN`. -/
def jsParseInt (s : String) : Option Int :=
  let cs := s.data.dropWhile fun c => c == ' ' || c == '\t' || c == '\n' || c == '\r'
  match cs with
  | '-' :: rest => (leadingNat rest).map fun n => -(n : Int)
  | '+' :: rest => (leadingNat rest).map fun n => (n : Int)
  | rest => (leadingNat rest).map fun n => (n : Int)

/-- `RateLimitInfo` from `auth.ts`: each numeric field holds `none` when
`parseInt` produced `NaN`; the outer `Option` of `retryAfter` is `none`
when the field was left `undefined`. -/
structure RateLimitInfo where
  limit : Option Int
  remaining : Option Int
  reset : Option Int
  retryAfter : Option (Option Int)
  deriving DecidableEq

/-- The four header values `parseRateLimitHeaders` reads from the
response, each `none` when `headers.get` returns `null`. -/
structure RateLimitHeaders where
  limit : Option String
  remaining : Option String
  reset : Option String
  retryAfter : Option String

/-- `parseRateLimitHeaders` from `auth.ts`: when the three primary
header values are truthy (non-null and nonempty) they are parsed with
`parseInt(_, 10)`, with `Retry-After` parsed when itself truthy and left
`undefined` otherwise; in every other case the result is `null`. -/
def parseRateLimitHeaders (h : RateLimitHeaders) : Option RateLimitInfo :=
  match h.limit, h.remaining, h.reset with
  | some l, some r, some s =>
    if l != "" && r != "" && s != "" then
      some { limit := jsParseInt l, remaining := jsParseInt r, reset := jsParseInt s,
             retryAfter :=
               match h.retryAfter with
               | some t => if t != "" then some (jsParseInt t) else none
               | none => none }
    else none
  | _, _, _ => none

example : parseRateLimitHeaders ⟨some "100", some "99", some "1700000000", none⟩ =
    some ⟨some 100, some 99, some 1700000000, none⟩ := by decide

example : parseRateLimitHeaders ⟨some "100", none, some "1700000000", none⟩ = none := by decide

/-- JSON whitespace removal. -/
def skipWs (cs : List Char) : List Char :=
  cs.dropWhile fun c => c == ' ' || c == '\t' || c == '\n' || c == '\r'

/-- The character a one-character escape sequence denotes. -/
def escChar (c : Char) : Char :=
  if c == 'n' then '\n' else if c == 't' then '\t' else if c == 'r' then '\r' else c

/-- The body of a JSON string after its opening quote: the decoded
characters and the remaining input, `none` when the closing quote is
missing. -/
def parseStrChars : List Char → Option (List Char × List Char)
  | [] => none
  | '\"' :: rest => some ([], rest)
  | '\\' :: c :: rest => (parseStrChars rest).map fun p => (escChar c :: p.1, p.2)
  | c :: rest => (parseStrChars rest).map fun p => (c :: p.1, p.2)

/-- A JSON number (restricted to the integers this store uses). -/
def parseNumberJ (cs : List Char) : Option (JVal × List Char) :=
  match cs with
  | '-' :: rest =>
    match leadingNat rest with
    | none => none
    | some n => some (.num (-(n : Int)), rest.dropWhile Char.isDigit)
  | rest =>
    match leadingNat rest with
    | none => none
    | some n => some (.num (n : Int), rest.dropWhile Char.isDigit)

mutual

/-- The JS builtin `JSON.parse`, modelled as a fuelled
recursive-descent reader of one JSON value (restricted to the JSON this
store produces: integer numbers and one-character string escapes); it
returns the value and the remaining input, and `none` where `JSON.parse`
raises a `SyntaxError`. -/
def parseValue : Nat → List Char → Option (JVal × List Char)
  | 0, _ => none
  | fuel + 1, cs =>
    match skipWs cs with
    | 'n' :: 'u' :: 'l' :: 'l' :: rest => some (.null, rest)
    | 't' :: 'r' :: 'u' :: 'e' :: rest => some (.bool true, rest)
    | 'f' :: 'a' :: 'l' :: 's' :: 'e' :: rest => some (.bool false, rest)
    | '\"' :: rest => (parseStrChars rest).map fun p => (.str (String.mk p.1), p.2)
    | '[' :: rest =>
      match skipWs rest with
      | ']' :: rest2 => some (.arr [], rest2)
      | _ => (parseElems fuel rest).map fun p => (.arr p.1, p.2)
    | '\x7b' :: rest =>
      match skipWs rest with
      | '\x7d' :: rest2 => some (.obj [], rest2)
      | _ => (parseMembers fuel rest).map fun p => (.obj p.1, p.2)
    | rest => parseNumberJ rest

/-- The elements of a nonempty JSON array up to and including the
closing bracket. -/
def parseElems : Nat → List Char → Option (List JVal × List Char)
  | 0, _ => none
  | fuel + 1, cs =>
    match parseValue fuel cs with
    | none => none
    | some (v, rest) =>
      match skipWs rest with
      | ',' :: rest2 => (parseElems fuel rest2).map fun p => (v :: p.1, p.2)
      | ']' :: rest2 => some ([v], rest2)
      | _ => none

/-- The members of a nonempty JSON object up to and including the
closing brace. -/
def parseMembers : Nat → List Char → Option (List (String × JVal) × List Char)
  | 0, _ => none
  | fuel + 1, cs =>
    match skipWs cs with
    | '\"' :: rest =>
      match parseStrChars rest with
      | none => none
      | some (kcs, rest2) =>
        match skipWs rest2 with
        | ':' :: rest3 =>
          match parseValue fuel rest3 with
          | none => none
          | some (v, rest4) =>
            match skipWs rest4 with
            | ',' :: rest5 => (parseMembers fuel rest5).map fun p => ((String.mk kcs, v) :: p.1, p.2)
            | '\x7d' :: rest5 => some ([(String.mk kcs, v)], rest5)
            | _ => none
        | _ => none
    | _ => none

end

/-- The JS builtin `JSON.parse` on a whole string: a parse that consumes
the input up to trailing whitespace succeeds, anything else is the
thrown `SyntaxError`. -/
def jsonParse (s : String) : Except String JVal :=
  match parseValue (s.length + 8) s.data with
  | some (v, rest) => if (skipWs rest).isEmpty then .ok v else .error "SyntaxError: unexpected trailing input"
  | none => .error "SyntaxError: invalid JSON"

/-- Whether an `Except` result is a success. -/
def exceptIsOk : Except String JVal → Bool
  | .ok _ => true
  | .error _ => false

/-- `getStoredTargetAccounts` from `accountService.ts`, at the level of
the raw stored string: `localStorage.getItem('target_accounts')` yields
`stored` (`none` models `null`); the source returns
`stored ? JSON.parse(stored) : []`, so an absent or empty stored value
yields the empty array while any other stored value goes to
`JSON.parse`, whose exception propagates (there is no try/catch). -/
def getStoredTargetAccounts (stored : Option String) : Except String JVal :=
  match stored with
  | none => .ok (.arr [])
  | some s => if s == "" then .ok (.arr []) else jsonParse s

example : jsonParse "[\"a\", 1, null]" = .ok (.arr [.str "a", .num 1, .null]) := rfl

example : exceptIsOk (jsonParse "not json") = false := rfl

example : jsonParse "\x7b\"id\": \"1\"\x7d" = .ok (.obj [("id", .str "1")]) := rfl

theorem lookupKey_cons (k₀ : String) (v₀ : JVal) (rest : List (String × JVal))
    (k : String) :
    lookupKey ((k₀, v₀) :: rest) k = if k₀ == k then some v₀ else lookupKey rest k := rfl

theorem setKey_cons (k₀ : String) (v₀ : JVal) (rest : List (String × JVal))
    (k : String) (v : JVal) :
    setKey ((k₀, v₀) :: rest) k v =
      if k₀ == k then (k₀, v) :: rest else (k₀, v₀) :: setKey rest k v := rfl

theorem keysOf_nil : keysOf [] = [] := rfl

theorem keysOf_cons (k₀ : String) (v₀ : JVal) (rest : List (String × JVal)) :
    keysOf ((k₀, v₀) :: rest) = k₀ :: keysOf rest := rfl

theorem beq_false_of_ne_str (a b : String) (h : ¬ a = b) : (a == b) = false :=
  beq_eq_false_iff_ne.mpr h

theorem lookupKey_setKey_self (l : List (String × JVal)) (k : String) (v : JVal) :
    lookupKey (setKey l k v) k = some v := by
  induction l with
  | nil => simp [setKey, lookupKey]
  | cons p rest ih =>
    obtain ⟨k₀, v₀⟩ := p
    rw [setKey_cons]
    cases h : k₀ == k with
    | true => simp [lookupKey_cons, h]
    | false => simp [lookupKey_cons, h, ih]

theorem lookupKey_setKey_ne (l : List (String × JVal)) (k k₂ : String) (v : JVal)
    (h : k₂ ≠ k) : lookupKey (setKey l k v) k₂ = lookupKey l k₂ := by
  induction l with
  | nil =>
    have hne : (k == k₂) = false := beq_false_of_ne_str k k₂ fun hh => h hh.symm
    simp [setKey, lookupKey, lookupKey_cons, hne]
  | cons p rest ih =>
    obtain ⟨k₀, v₀⟩ := p
    rw [setKey_cons]
    cases h₀ : k₀ == k with
    | true =>
      have hk : k₀ = k := by simpa [beq_iff_eq] using h₀
      have hne : (k₀ == k₂) = false := by
        subst hk; exact beq_false_of_ne_str k₀ k₂ fun hh => h hh.symm
      simp [lookupKey_cons, hne]
    | false => simp [lookupKey_cons, ih]

theorem lookupKey_eq_none_of_not_mem (l : List (String × JVal)) (k : String)
    (h : k ∉ keysOf l) : lookupKey l k = none := by
  induction l with
  | nil => rfl
  | cons p rest ih =>
    obtain ⟨k₀, v₀⟩ := p
    rw [keysOf_cons, List.mem_cons, not_or] at h
    have hne : (k₀ == k) = false := beq_false_of_ne_str k₀ k fun hh => h.1 hh.symm
    rw [lookupKey_cons]
    simpa [hne] using ih h.2

/-- Insert a key into a key list the way `setKey` affects the keys of an
entry list: already-present keys leave the list unchanged, new keys are
appended. -/
def addKey (ks : List String) (k : String) : List String :=
  if k ∈ ks then ks else ks ++ [k]

theorem mem_addKey_self (ks : List String) (k : String) : k ∈ addKey ks k := by
  by_cases h : k ∈ ks <;> simp [addKey, h]

theorem mem_addKey_of_mem (ks : List String) (k q : String) (h : q ∈ ks) :
    q ∈ addKey ks k := by
  by_cases hm : k ∈ ks <;> simp [addKey, hm, h]

theorem addKey_of_mem (ks : List String) (k : String) (h : k ∈ ks) :
    addKey ks k = ks := by simp [addKey, h]

theorem mem_foldl_addKey (es ks : List String) (k : String) (h : k ∈ ks) :
    k ∈ es.foldl addKey ks := by
  induction es generalizing ks with
  | nil => exact h
  | cons e rest ih => exact ih _ (mem_addKey_of_mem ks e k h)

theorem mem_foldl_addKey_of_mem_list (es ks : List String) (k : String) (h : k ∈ es) :
    k ∈ es.foldl addKey ks := by
  induction es generalizing ks with
  | nil => simp at h
  | cons e rest ih =>
    rcases List.mem_cons.mp h with h | h
    · subst h; exact mem_foldl_addKey rest _ k (mem_addKey_self ks k)
    · exact ih _ h

theorem foldl_addKey_of_subset (es ks : List String) (h : ∀ x ∈ es, x ∈ ks) :
    es.foldl addKey ks = ks := by
  induction es with
  | nil => rfl
  | cons e rest ih =>
    simp only [List.foldl_cons]
    rw [addKey_of_mem ks e (h e (List.mem_cons_self e rest))]
    exact ih fun x hx => h x (List.mem_cons_of_mem e hx)

theorem nodup_addKey (ks : List String) (k : String) (h : ks.Nodup) :
    (addKey ks k).Nodup := by
  by_cases hm : k ∈ ks
  · simpa [addKey, hm] using h
  · simp only [addKey, hm, if_false]
    exact List.Nodup.append h (List.nodup_singleton k) (by simpa using hm)

theorem nodup_foldl_addKey (es ks : List String) (h : ks.Nodup) :
    (es.foldl addKey ks).Nodup := by
  induction es generalizing ks with
  | nil => exact h
  | cons e rest ih => exact ih _ (nodup_addKey ks e h)

theorem keysOf_setKey (l : List (String × JVal)) (k : String) (v : JVal) :
    keysOf (setKey l k v) = addKey (keysOf l) k := by
  induction l with
  | nil => simp [setKey, keysOf, addKey]
  | cons p rest ih =>
    obtain ⟨k₀, v₀⟩ := p
    cases h : k₀ == k with
    | true =>
      have hk : k₀ = k := by simpa [beq_iff_eq] using h
      subst hk
      rw [setKey_cons, if_pos h, keysOf_cons, keysOf_cons, addKey,
        if_pos (List.mem_cons_self k₀ _)]
    | false =>
      have hk : ¬ k = k₀ := by
        intro hh; subst hh; simp at h
      rw [setKey_cons, if_neg (by simp [h]), keysOf_cons, keysOf_cons, ih]
      by_cases hm : k ∈ keysOf rest
      · rw [addKey_of_mem _ _ hm, addKey_of_mem]
        exact List.mem_cons_of_mem k₀ hm
      · rw [addKey, if_neg hm, addKey,
          if_neg (by simp [hk, hm]), List.cons_append]

theorem spread_nil_right (l : List (String × JVal)) : spread l [] = l := rfl

theorem spread_cons (l : List (String × JVal)) (k : String) (v : JVal)
    (e : List (String × JVal)) : spread l ((k, v) :: e) = spread (setKey l k v) e := rfl

theorem lookupKey_spread_not_mem (e l : List (String × JVal)) (k : String)
    (h : k ∉ keysOf e) : lookupKey (spread l e) k = lookupKey l k := by
  induction e generalizing l with
  | nil => rfl
  | cons p rest ih =>
    obtain ⟨k₁, v₁⟩ := p
    rw [keysOf_cons, List.mem_cons, not_or] at h
    rw [spread_cons, ih _ h.2]
    exact lookupKey_setKey_ne l k₁ k v₁ h.1

theorem lookupKey_spread_mem (e l : List (String × JVal)) (k : String)
    (hnd : (keysOf e).Nodup) (h : k ∈ keysOf e) :
    lookupKey (spread l e) k = lookupKey e k := by
  induction e generalizing l with
  | nil => simp [keysOf] at h
  | cons p rest ih =>
    obtain ⟨k₁, v₁⟩ := p
    rw [keysOf_cons, List.nodup_cons] at hnd
    rw [spread_cons]
    by_cases hk : k = k₁
    · subst hk
      rw [lookupKey_spread_not_mem rest _ k hnd.1]
      simp [lookupKey_cons, lookupKey_setKey_self]
    · have hm : k ∈ keysOf rest := by
        rw [keysOf_cons, List.mem_cons] at h
        exact h.resolve_left hk
      rw [ih _ hnd.2 hm, lookupKey_cons,
        if_neg (by simp [beq_false_of_ne_str k₁ k fun hh => hk hh.symm])]

theorem keysOf_spread (l e : List (String × JVal)) :
    keysOf (spread l e) = (keysOf e).foldl addKey (keysOf l) := by
  induction e generalizing l with
  | nil => rfl
  | cons p rest ih =>
    obtain ⟨k₁, v₁⟩ := p
    rw [spread_cons, keysOf_cons, List.foldl_cons, ih, keysOf_setKey]

theorem keysOf_append (a b : List (String × JVal)) :
    keysOf (a ++ b) = keysOf a ++ keysOf b := List.map_append _ _ _

theorem mem_setKey (l : List (String × JVal)) (k : String) (v : JVal)
    (p : String × JVal) (h : p ∈ setKey l k v) : p ∈ l ∨ p = (k, v) := by
  induction l with
  | nil => simpa [setKey] using h
  | cons q rest ih =>
    obtain ⟨k₀, v₀⟩ := q
    cases hb : k₀ == k with
    | true =>
      have hk : k₀ = k := by simpa [beq_iff_eq] using hb
      subst hk
      rw [setKey_cons, if_pos hb] at h
      rcases List.mem_cons.mp h with h | h
      · right; exact h
      · left; exact List.mem_cons_of_mem _ h
    | false =>
      rw [setKey_cons, if_neg (by simp [hb])] at h
      rcases List.mem_cons.mp h with h | h
      · left; simp [h]
      · rcases ih h with h | h
        · left; exact List.mem_cons_of_mem _ h
        · right; exact h

theorem mem_spread (e acc : List (String × JVal)) (p : String × JVal)
    (h : p ∈ spread acc e) : p ∈ acc ∨ p ∈ e := by
  induction e generalizing acc with
  | nil => left; exact h
  | cons q rest ih =>
    obtain ⟨k₁, v₁⟩ := q
    rw [spread_cons] at h
    rcases ih _ h with h | h
    · rcases mem_setKey _ _ _ _ h with h | h
      · left; exact h
      · right; simp [h]
    · right; exact List.mem_cons_of_mem _ h

theorem setKey_not_mem_append (l : List (String × JVal)) (k : String) (v : JVal)
    (h : k ∉ keysOf l) : setKey l k v = l ++ [(k, v)] := by
  induction l with
  | nil => rfl
  | cons q rest ih =>
    obtain ⟨k₀, v₀⟩ := q
    rw [keysOf_cons, List.mem_cons, not_or] at h
    rw [setKey_cons,
      if_neg (by simp [beq_false_of_ne_str k₀ k fun hh => h.1 hh.symm]),
      ih h.2, List.cons_append]

theorem spread_eq_append (acc l : List (String × JVal))
    (hnd : (keysOf l).Nodup) (hdisj : ∀ k ∈ keysOf l, k ∉ keysOf acc) :
    spread acc l = acc ++ l := by
  induction l generalizing acc with
  | nil => simp [spread_nil_right]
  | cons q rest ih =>
    obtain ⟨k₁, v₁⟩ := q
    rw [keysOf_cons, List.nodup_cons] at hnd
    have h₁ : k₁ ∉ keysOf acc :=
      hdisj k₁ (by rw [keysOf_cons]; exact List.mem_cons_self _ _)
    have hd2 : ∀ k ∈ keysOf rest, k ∉ keysOf (acc ++ [(k₁, v₁)]) := by
      intro k hk
      rw [keysOf_append]
      intro hmem
      rcases List.mem_append.mp hmem with hmem | hmem
      · exact hdisj k (by rw [keysOf_cons]; exact List.mem_cons_of_mem _ hk) hmem
      · have : k = k₁ := by simpa [keysOf] using hmem
        exact hnd.1 (this ▸ hk)
    rw [spread_cons, setKey_not_mem_append acc k₁ v₁ h₁, ih _ hnd.2 hd2,
      List.append_assoc, List.singleton_append]

theorem alist_ext (l₁ l₂ : List (String × JVal)) (hk : keysOf l₁ = keysOf l₂)
    (hnd : (keysOf l₁).Nodup) (hl : ∀ k, lookupKey l₁ k = lookupKey l₂ k) :
    l₁ = l₂ := by
  induction l₁ generalizing l₂ with
  | nil =>
    cases l₂ with
    | nil => rfl
    | cons q rest₂ =>
      obtain ⟨k₁, v₁⟩ := q
      rw [keysOf_nil, keysOf_cons] at hk
      exact absurd hk (by simp)
  | cons p rest ih =>
    obtain ⟨k₀, v₀⟩ := p
    cases l₂ with
    | nil =>
      rw [keysOf_cons, keysOf_nil] at hk
      exact absurd hk (by simp)
    | cons q rest₂ =>
      obtain ⟨k₁, v₁⟩ := q
      rw [keysOf_cons, keysOf_cons] at hk
      injection hk with hk0 hkrest
      subst hk0
      have hv : v₀ = v₁ := by
        have := hl k₀
        rw [lookupKey_cons, lookupKey_cons] at this
        simpa using this
      subst hv
      rw [keysOf_cons, List.nodup_cons] at hnd
      have htail : rest = rest₂ := by
        apply ih
        · exact hkrest
        · exact hnd.2
        · intro k
          by_cases hkk : k = k₀
          · subst hkk
            rw [lookupKey_eq_none_of_not_mem rest k hnd.1,
              lookupKey_eq_none_of_not_mem rest₂ k (hkrest ▸ hnd.1)]
          · have := hl k
            rw [lookupKey_cons, lookupKey_cons,
              if_neg (by simp [beq_false_of_ne_str k₀ k fun hh => hkk hh.symm]),
              if_neg (by simp [beq_false_of_ne_str k₀ k fun hh => hkk hh.symm])] at this
            exact this
      rw [htail]

/-- Re-spreading an already normalized entry list is the identity: with
`L = spread (spread M e) ov` (spread the data entries `e` onto the
entity `M`, then re-assert the protected overrides `ov`), spreading `e`
and `ov` onto `L` again gives back `L`. -/
theorem spread_renormalize (M e ov : List (String × JVal))
    (hndM : (keysOf M).Nodup) (hnde : (keysOf e).Nodup)
    (hndov : (keysOf ov).Nodup) :
    spread (spread (spread (spread M e) ov) e) ov = spread (spread M e) ov := by
  have hKL : keysOf (spread (spread M e) ov) =
      (keysOf ov).foldl addKey ((keysOf e).foldl addKey (keysOf M)) := by
    rw [keysOf_spread, keysOf_spread]
  have hsubE : ∀ x ∈ keysOf e, x ∈ keysOf (spread (spread M e) ov) := by
    intro x hx
    rw [hKL]
    exact mem_foldl_addKey _ _ _ (mem_foldl_addKey_of_mem_list _ _ _ hx)
  have hsubOv : ∀ x ∈ keysOf ov, x ∈ keysOf (spread (spread M e) ov) := by
    intro x hx
    rw [hKL]
    exact mem_foldl_addKey_of_mem_list _ _ _ hx
  apply alist_ext
  · rw [keysOf_spread, keysOf_spread, foldl_addKey_of_subset _ _ hsubE,
      foldl_addKey_of_subset _ _ hsubOv]
  · rw [keysOf_spread, keysOf_spread, foldl_addKey_of_subset _ _ hsubE,
      foldl_addKey_of_subset _ _ hsubOv, hKL]
    exact nodup_foldl_addKey _ _ (nodup_foldl_addKey _ _ hndM)
  · intro k
    by_cases hov : k ∈ keysOf ov
    · rw [lookupKey_spread_mem ov _ k hndov hov, lookupKey_spread_mem ov _ k hndov hov]
    · rw [lookupKey_spread_not_mem ov _ k hov, lookupKey_spread_not_mem ov _ k hov]
      by_cases he : k ∈ keysOf e
      · rw [lookupKey_spread_mem e _ k hnde he, lookupKey_spread_mem e _ k hnde he]
      · rw [lookupKey_spread_not_mem e _ k he, lookupKey_spread_not_mem ov _ k hov]

/-- No underscore is immediately followed by a lowercase ASCII letter:
the shape `snakeToCamelChars` leaves behind. -/
def noSnake : List Char → Bool
  | [] => true
  | [_] => true
  | a :: b :: rest => !(a == '_' && isLowerAscii b) && noSnake (b :: rest)

theorem lowerUpper_targets :
    ∀ p ∈ lowerUpper, isLowerAscii p.2 = false ∧ (p.2 == '_') = false := by decide

theorem upChar_props (c : Char) (h : isLowerAscii c = true) :
    isLowerAscii (upChar c) = false ∧ (upChar c == '_') = false := by
  have hsome : (lowerUpper.find? fun p => p.1 == c).isSome := by
    rw [List.find?_isSome]
    simpa [isLowerAscii, List.any_eq_true] using h
  obtain ⟨r, hr⟩ := Option.isSome_iff_exists.mp hsome
  have hrmem := List.mem_of_find?_eq_some hr
  unfold upChar
  rw [hr]
  simpa using lowerUpper_targets r hrmem

theorem noSnake_cons_of (a : Char) (l : List Char)
    (h : (a == '_') = false ∨ ∀ b t, l = b :: t → isLowerAscii b = false)
    (hn : noSnake l = true) : noSnake (a :: l) = true := by
  cases l with
  | nil => rfl
  | cons b t =>
    show (!(a == '_' && isLowerAscii b) && noSnake (b :: t)) = true
    rcases h with h | h
    · simp [h, hn]
    · simp [h b t rfl, hn]

theorem snakeToCamelChars_head (b : Char) (rest : List Char)
    (hb : isLowerAscii b = false) :
    ∃ h t, snakeToCamelChars (b :: rest) = h :: t ∧ isLowerAscii h = false := by
  cases rest with
  | nil => exact ⟨b, [], rfl, hb⟩
  | cons c t =>
    cases hc : (b == '_' && isLowerAscii c) with
    | true =>
      have hc2 := hc
      rw [Bool.and_eq_true] at hc2
      have hcl : isLowerAscii c = true := hc2.2
      refine ⟨upChar c, snakeToCamelChars t, ?_, (upChar_props c hcl).1⟩
      simp only [snakeToCamelChars]
      rw [if_pos hc]
    | false =>
      refine ⟨b, snakeToCamelChars (c :: t), ?_, hb⟩
      simp only [snakeToCamelChars]
      rw [if_neg (by simp [hc])]

theorem noSnake_snakeToCamelChars (l : List Char) :
    noSnake (snakeToCamelChars l) = true := by
  match l with
  | [] => rfl
  | [c] => rfl
  | a :: b :: rest =>
    cases hc : (a == '_' && isLowerAscii b) with
    | true =>
      have hc2 := hc
      rw [Bool.and_eq_true] at hc2
      have hbl : isLowerAscii b = true := hc2.2
      have ih := noSnake_snakeToCamelChars rest
      have heq : snakeToCamelChars (a :: b :: rest) = upChar b :: snakeToCamelChars rest := by
        simp only [snakeToCamelChars]
        rw [if_pos hc]
      rw [heq]
      exact noSnake_cons_of _ _ (Or.inl (upChar_props b hbl).2) ih
    | false =>
      have ih := noSnake_snakeToCamelChars (b :: rest)
      have heq : snakeToCamelChars (a :: b :: rest) = a :: snakeToCamelChars (b :: rest) := by
        simp only [snakeToCamelChars]
        rw [if_neg (by simp [hc])]
      rw [heq]
      apply noSnake_cons_of _ _ _ ih
      cases ha : (a == '_') with
      | false => exact Or.inl rfl
      | true =>
        have hbf : isLowerAscii b = false := by
          cases hbb : isLowerAscii b with
          | false => rfl
          | true => rw [ha, hbb] at hc; simp at hc
        obtain ⟨h₀, t₀, heq₀, hl₀⟩ := snakeToCamelChars_head b rest hbf
        refine Or.inr fun b₁ t₁ heq₁ => ?_
        rw [heq₀] at heq₁
        injection heq₁ with hb₁ _
        rw [← hb₁]
        exact hl₀
termination_by l.length

theorem snakeToCamelChars_fixed (l : List Char) (h : noSnake l = true) :
    snakeToCamelChars l = l := by
  match l with
  | [] => rfl
  | [c] => rfl
  | a :: b :: rest =>
    have hns : (!(a == '_' && isLowerAscii b) && noSnake (b :: rest)) = true := h
    rw [Bool.and_eq_true] at hns
    obtain ⟨h1, h2⟩ := hns
    have hc : (a == '_' && isLowerAscii b) = false := by
      cases hcc : (a == '_' && isLowerAscii b)
      · rfl
      · rw [hcc] at h1; simp at h1
    have ih := snakeToCamelChars_fixed (b :: rest) h2
    simp only [snakeToCamelChars]
    rw [if_neg (by simp [hc]), ih]
termination_by l.length

theorem snakeToCamel_idem (s : String) :
    snakeToCamel (snakeToCamel s) = snakeToCamel s :=
  congrArg String.mk (snakeToCamelChars_fixed _ (noSnake_snakeToCamelChars s.data))

theorem transList_eq_map (l : List JVal) :
    transList l = l.map transformKeysToCamelCase := by
  induction l with
  | nil => rfl
  | cons x xs ih => rw [transList, ih, List.map_cons]

theorem transEntries_eq_spread (l acc : List (String × JVal)) :
    transEntries l acc =
      spread acc (l.map fun p => (snakeToCamel p.1, transformKeysToCamelCase p.2)) := by
  induction l generalizing acc with
  | nil => rfl
  | cons p rest ih =>
    obtain ⟨k, v⟩ := p
    rw [transEntries, ih, List.map_cons, spread_cons]

theorem nodup_keys_spread_nil (l : List (String × JVal)) :
    (keysOf (spread [] l)).Nodup := by
  rw [keysOf_spread]
  exact nodup_foldl_addKey _ _ (by rw [keysOf_nil]; exact List.nodup_nil)

theorem spread_nil_of_nodup (l : List (String × JVal)) (h : (keysOf l).Nodup) :
    spread [] l = l := by
  have := spread_eq_append [] l h
    (by intro k hk; rw [keysOf_nil]; exact List.not_mem_nil k)
  simpa using this

theorem trans_idem (v : JVal) :
    transformKeysToCamelCase (transformKeysToCamelCase v) = transformKeysToCamelCase v := by
  match v with
  | .null => rfl
  | .undefined => rfl
  | .bool b => rfl
  | .num n => rfl
  | .str s => rfl
  | .arr xs =>
    show JVal.arr (transList (transList xs)) = .arr (transList xs)
    rw [transList_eq_map, transList_eq_map, List.map_map]
    congr 1
    apply List.map_congr_left
    intro x hx
    show transformKeysToCamelCase (transformKeysToCamelCase x) = transformKeysToCamelCase x
    exact trans_idem x
  | .obj kvs =>
    show JVal.obj (transEntries (transEntries kvs []) []) = .obj (transEntries kvs [])
    congr 1
    rw [transEntries_eq_spread kvs [], transEntries_eq_spread]
    have hmap : ((spread [] (kvs.map fun p => (snakeToCamel p.1, transformKeysToCamelCase p.2))).map
        fun p => (snakeToCamel p.1, transformKeysToCamelCase p.2)) =
        spread [] (kvs.map fun p => (snakeToCamel p.1, transformKeysToCamelCase p.2)) := by
      have hfix : ∀ p ∈ spread [] (kvs.map fun p => (snakeToCamel p.1, transformKeysToCamelCase p.2)),
          (fun p => (snakeToCamel p.1, transformKeysToCamelCase p.2)) p = id p := by
        intro p hp
        rcases mem_spread _ _ _ hp with hp | hp
        · exact absurd hp (List.not_mem_nil p)
        · obtain ⟨q, hq, hfq⟩ := List.mem_map.mp hp
          obtain ⟨kq, vq⟩ := q
          rw [← hfq]
          show (snakeToCamel (snakeToCamel kq), transformKeysToCamelCase (transformKeysToCamelCase vq)) =
            (snakeToCamel kq, transformKeysToCamelCase vq)
          rw [snakeToCamel_idem, trans_idem vq]
      rw [List.map_congr_left hfix, List.map_id]
    rw [hmap]
    exact spread_nil_of_nodup _ (nodup_keys_spread_nil _)
termination_by sizeOf v
decreasing_by
  · have h1 := List.sizeOf_lt_of_mem hx
    simp only [JVal.arr.sizeOf_spec]
    omega
  · have h1 := List.sizeOf_lt_of_mem hq
    simp only [JVal.obj.sizeOf_spec, Prod.mk.sizeOf_spec] at h1 ⊢
    omega

theorem jsTruthy_of_isObj (v : JVal) (h : isObj v = true) : jsTruthy v = true := by
  cases v <;> first | rfl | simp [isObj] at h

theorem isObj_trans (v : JVal) (h : isObj v = true) :
    isObj (transformKeysToCamelCase v) = true := by
  cases v <;> first | rfl | simp [isObj] at h

theorem nodup_keys_entries_trans (w : JVal) (h : isObj w = true) :
    (keysOf (entriesOf (transformKeysToCamelCase w))).Nodup := by
  cases w with
  | obj kvs =>
    show (keysOf (transEntries kvs [])).Nodup
    rw [transEntries_eq_spread]
    exact nodup_keys_spread_nil _
  | null => simp [isObj] at h
  | undefined => simp [isObj] at h
  | bool b => simp [isObj] at h
  | num n => simp [isObj] at h
  | str s => simp [isObj] at h
  | arr xs => simp [isObj] at h

theorem normalizePersonaResponse_idem_aux (x : JVal) (h : wellFormedEntity x) :
    normalizePersonaResponse (normalizePersonaResponse x) = normalizePersonaResponse x := by
  obtain ⟨hobj, hnd, hdat⟩ := h
  have hdobj := isObj_trans _ hdat
  have hdtru := jsTruthy_of_isObj _ hdobj
  have h1 : getField (normalizePersonaResponse x) "data" =
      transformKeysToCamelCase (jsOr (getField x "data") (.obj [])) := by
    simp only [normalizePersonaResponse, getField, lookupKey_setKey_self, Option.getD_some]
  have h2 : jsOr (getField (normalizePersonaResponse x) "data") (.obj []) =
      transformKeysToCamelCase (jsOr (getField x "data") (.obj [])) := by
    rw [h1, jsOr, if_pos hdtru]
  show JVal.obj (setKey (spread (entriesOf (normalizePersonaResponse x))
      (entriesOf (transformKeysToCamelCase
        (jsOr (getField (normalizePersonaResponse x) "data") (.obj [])))))
      "data" (transformKeysToCamelCase
        (jsOr (getField (normalizePersonaResponse x) "data") (.obj [])))) =
    normalizePersonaResponse x
  rw [h2, trans_idem]
  show JVal.obj (spread (spread (spread (spread (entriesOf x)
      (entriesOf (transformKeysToCamelCase (jsOr (getField x "data") (.obj [])))))
      [("data", transformKeysToCamelCase (jsOr (getField x "data") (.obj [])))])
      (entriesOf (transformKeysToCamelCase (jsOr (getField x "data") (.obj [])))))
      [("data", transformKeysToCamelCase (jsOr (getField x "data") (.obj [])))]) =
    JVal.obj (spread (spread (entriesOf x)
      (entriesOf (transformKeysToCamelCase (jsOr (getField x "data") (.obj [])))))
      [("data", transformKeysToCamelCase (jsOr (getField x "data") (.obj [])))])
  congr 1
  exact spread_renormalize _ _ _ hnd (nodup_keys_entries_trans _ hdat) (by simp [keysOf])

theorem normalizeCampaignResponse_idem_aux (x : JVal) (h : wellFormedEntity x) :
    normalizeCampaignResponse (normalizeCampaignResponse x) = normalizeCampaignResponse x := by
  obtain ⟨hobj, hnd, hdat⟩ := h
  have hdobj := isObj_trans _ hdat
  have hdtru := jsTruthy_of_isObj _ hdobj
  have hne : "data" ≠ "type" := by decide
  have h1 : getField (normalizeCampaignResponse x) "data" =
      transformKeysToCamelCase (jsOr (getField x "data") (.obj [])) := by
    simp only [normalizeCampaignResponse, getField]
    rw [lookupKey_setKey_ne _ _ _ _ hne, lookupKey_setKey_self, Option.getD_some]
  have h2 : jsOr (getField (normalizeCampaignResponse x) "data") (.obj []) =
      transformKeysToCamelCase (jsOr (getField x "data") (.obj [])) := by
    rw [h1, jsOr, if_pos hdtru]
  have h3 : getField (normalizeCampaignResponse x) "type" = getField x "type" := by
    simp only [normalizeCampaignResponse, getField, lookupKey_setKey_self, Option.getD_some]
  show JVal.obj (setKey (setKey (spread (entriesOf (normalizeCampaignResponse x))
      (entriesOf (transformKeysToCamelCase
        (jsOr (getField (normalizeCampaignResponse x) "data") (.obj [])))))
      "data" (transformKeysToCamelCase
        (jsOr (getField (normalizeCampaignResponse x) "data") (.obj []))))
      "type" (getField (normalizeCampaignResponse x) "type")) =
    normalizeCampaignResponse x
  rw [h2, h3, trans_idem]
  show JVal.obj (spread (spread (spread (spread (entriesOf x)
      (entriesOf (transformKeysToCamelCase (jsOr (getField x "data") (.obj [])))))
      [("data", transformKeysToCamelCase (jsOr (getField x "data") (.obj []))),
       ("type", getField x "type")])
      (entriesOf (transformKeysToCamelCase (jsOr (getField x "data") (.obj [])))))
      [("data", transformKeysToCamelCase (jsOr (getField x "data") (.obj []))),
       ("type", getField x "type")]) =
    JVal.obj (spread (spread (entriesOf x)
      (entriesOf (transformKeysToCamelCase (jsOr (getField x "data") (.obj [])))))
      [("data", transformKeysToCamelCase (jsOr (getField x "data") (.obj []))),
       ("type", getField x "type")])
  congr 1
  exact spread_renormalize _ _ _ hnd (nodup_keys_entries_trans _ hdat) (by simp [keysOf])

theorem saveTargetAccount_nil (a : TargetAccount) : saveTargetAccount [] a = [a] := rfl

theorem saveTargetAccount_cons (p : TargetAccount) (rest : List TargetAccount)
    (a : TargetAccount) :
    saveTargetAccount (p :: rest) a =
      if p.id == a.id then a :: rest else p :: saveTargetAccount rest a := by
  unfold saveTargetAccount
  rw [List.findIdx?_cons]
  cases hb : p.id == a.id with
  | true =>
    rw [if_pos rfl, if_pos rfl]
    simp [List.set]
  | false =>
    rw [if_neg Bool.false_ne_true, if_neg Bool.false_ne_true, List.findIdx?_start_succ]
    cases hf : rest.findIdx? (fun q => q.id == a.id) with
    | none => simp [hf]
    | some i => simp [hf, List.set]

theorem mem_saveTargetAccount (store : List TargetAccount) (a b : TargetAccount)
    (h : b ∈ saveTargetAccount store a) : b ∈ store ∨ b = a := by
  induction store with
  | nil =>
    rw [saveTargetAccount_nil] at h
    right; simpa using h
  | cons p rest ih =>
    rw [saveTargetAccount_cons] at h
    cases hb : p.id == a.id with
    | true =>
      rw [if_pos hb] at h
      rcases List.mem_cons.mp h with h | h
      · right; exact h
      · left; exact List.mem_cons_of_mem _ h
    | false =>
      rw [if_neg (by simp [hb])] at h
      rcases List.mem_cons.mp h with h | h
      · left; simp [h]
      · rcases ih h with h | h
        · left; exact List.mem_cons_of_mem _ h
        · right; exact h

theorem saveTargetAccount_filter_ne (store : List TargetAccount) (a : TargetAccount) :
    (saveTargetAccount store a).filter (fun p => p.id != a.id) =
      store.filter (fun p => p.id != a.id) := by
  induction store with
  | nil => simp [saveTargetAccount_nil]
  | cons p rest ih =>
    rw [saveTargetAccount_cons]
    cases hb : p.id == a.id with
    | true =>
      rw [if_pos rfl]
      have hpa : (p.id != a.id) = false := by simp [bne, hb]
      simp [List.filter_cons, hpa, bne_self_eq_false]
    | false =>
      rw [if_neg Bool.false_ne_true]
      have hpa : (p.id != a.id) = true := by simp [bne, hb]
      simp [List.filter_cons, hpa, ih]

theorem saveTargetAccount_filter_eq (store : List TargetAccount) (a : TargetAccount)
    (hnd : (store.map TargetAccount.id).Nodup) :
    (saveTargetAccount store a).filter (fun p => p.id == a.id) = [a] := by
  induction store with
  | nil => simp [saveTargetAccount_nil]
  | cons p rest ih =>
    rw [List.map_cons, List.nodup_cons] at hnd
    rw [saveTargetAccount_cons]
    cases hb : p.id == a.id with
    | true =>
      rw [if_pos rfl]
      have hpid : p.id = a.id := by simpa [beq_iff_eq] using hb
      have hrest : rest.filter (fun q => q.id == a.id) = [] := by
        rw [List.filter_eq_nil_iff]
        intro q hq
        have hqp : q.id ≠ p.id := fun hc => hnd.1 (hc ▸ List.mem_map_of_mem TargetAccount.id hq)
        simp [hpid ▸ hqp]
      simp [List.filter_cons, hrest]
    | false =>
      rw [if_neg Bool.false_ne_true]
      simp [List.filter_cons, hb, ih hnd.2]

theorem saveTargetAccount_nodup (store : List TargetAccount) (a : TargetAccount)
    (hnd : (store.map TargetAccount.id).Nodup) :
    ((saveTargetAccount store a).map TargetAccount.id).Nodup := by
  induction store with
  | nil => simp [saveTargetAccount_nil]
  | cons p rest ih =>
    rw [List.map_cons, List.nodup_cons] at hnd
    rw [saveTargetAccount_cons]
    cases hb : p.id == a.id with
    | true =>
      rw [if_pos rfl]
      have hpid : p.id = a.id := by simpa [beq_iff_eq] using hb
      rw [List.map_cons, List.nodup_cons]
      exact ⟨hpid ▸ hnd.1, hnd.2⟩
    | false =>
      rw [if_neg Bool.false_ne_true]
      rw [List.map_cons, List.nodup_cons]
      refine ⟨?_, ih hnd.2⟩
      intro hmem
      obtain ⟨b, hbmem, hbid⟩ := List.mem_map.mp hmem
      rcases mem_saveTargetAccount rest a b hbmem with h | h
      · exact hnd.1 (hbid ▸ List.mem_map_of_mem TargetAccount.id h)
      · subst h
        rw [hbid] at hb
        simp at hb

/-- C1: entity response normalization is idempotent — for every
well-formed entity `x`, applying the response normalizer twice yields
the same result as applying it once, for both the persona normalizer and
the campaign normalizer. -/
theorem claim_normalization_idempotent (x : JVal) (h : wellFormedEntity x) :
    normalizePersonaResponse (normalizePersonaResponse x) = normalizePersonaResponse x ∧
    normalizeCampaignResponse (normalizeCampaignResponse x) = normalizeCampaignResponse x :=
  ⟨normalizePersonaResponse_idem_aux x h, normalizeCampaignResponse_idem_aux x h⟩

/-- C1 witness: idempotence at a concrete well-formed entity. -/
theorem claim_normalization_idempotent_witness :
    wellFormedEntity (.obj [("id", .str "1"), ("type", .str "email"),
      ("data", .obj [("target_persona_name", .str "VP Sales")])]) ∧
    (normalizePersonaResponse (normalizePersonaResponse (.obj [("id", .str "1"),
        ("type", .str "email"), ("data", .obj [("target_persona_name", .str "VP Sales")])])) =
      normalizePersonaResponse (.obj [("id", .str "1"), ("type", .str "email"),
        ("data", .obj [("target_persona_name", .str "VP Sales")])]) ∧
     normalizeCampaignResponse (normalizeCampaignResponse (.obj [("id", .str "1"),
        ("type", .str "email"), ("data", .obj [("target_persona_name", .str "VP Sales")])])) =
      normalizeCampaignResponse (.obj [("id", .str "1"), ("type", .str "email"),
        ("data", .obj [("target_persona_name", .str "VP Sales")])])) :=
  ⟨by decide, claim_normalization_idempotent _ (by decide)⟩

/-- C2: whenever the authenticated boundary is crossed in either
direction, the auth-change effect clears all drafts via the Draft
Manager, clears the entire query cache, and invalidates the
company-scoped keys `['company']` and `['companies']`. -/
theorem claim_auth_transition_wipe (prev curr : AuthState) (ds : DraftStore)
    (qc : QueryCache) (h : prev.isAuthenticated ≠ curr.isAuthenticated) :
    authChangeEffect prev curr ds qc =
      ([], ⟨[], [["company"], ["companies"]]⟩, curr) := by
  unfold authChangeEffect clearDraftsOnAuthChange clearCache invalidateQueries
  cases hp : prev.isAuthenticated <;> cases hc : curr.isAuthenticated <;> simp_all

/-- C2 witness: the wipe at a concrete unauthenticated-to-authenticated
transition over a nonempty draft store and cache. -/
theorem claim_auth_transition_wipe_witness :
    (({ isAuthenticated := false, token := none, userInfo := none } : AuthState).isAuthenticated ≠
      ({ isAuthenticated := true, token := some "tok", userInfo := none } : AuthState).isAuthenticated) ∧
    authChangeEffect { isAuthenticated := false, token := none, userInfo := none }
      { isAuthenticated := true, token := some "tok", userInfo := none }
      [("account", [.null])] ⟨[(["company", "c1"], .null)], []⟩ =
      ([], ⟨[], [["company"], ["companies"]]⟩,
        { isAuthenticated := true, token := some "tok", userInfo := none }) :=
  ⟨by decide, claim_auth_transition_wipe _ _ _ _ (by decide)⟩

/-- C3 counterexample: the claim that the top-level `id` is never
overridden by nested data fails — an `id` key inside `data` overwrites
the top-level `id` of the normalized persona, because the source
re-asserts only `data` (and, for campaigns, `type`). -/
theorem claim_protected_fields_cex :
    getField (normalizePersonaResponse (.obj [("id", .str "1"),
      ("data", .obj [("id", .str "2")])])) "id" = .str "2" ∧
    getField (.obj [("id", .str "1"), ("data", .obj [("id", .str "2")])]) "id" = .str "1" ∧
    JVal.str "2" ≠ JVal.str "1" :=
  ⟨rfl, rfl, by simp⟩

/-- C3 amended: the normalizers re-assert `data` (both) and the
top-level `type` (campaigns), so those are never overridden by keys of
the normalized data; the top-level `id` is not re-asserted. -/
theorem claim_campaign_type_preserved (x : JVal) :
    getField (normalizeCampaignResponse x) "type" = getField x "type" ∧
    getField (normalizeCampaignResponse x) "data" =
      transformKeysToCamelCase (jsOr (getField x "data") (.obj [])) ∧
    getField (normalizePersonaResponse x) "data" =
      transformKeysToCamelCase (jsOr (getField x "data") (.obj [])) := by
  refine ⟨?_, ?_, ?_⟩
  · simp only [normalizeCampaignResponse, getField, lookupKey_setKey_self, Option.getD_some]
  · simp only [normalizeCampaignResponse, getField]
    rw [lookupKey_setKey_ne _ _ _ _ (by decide), lookupKey_setKey_self, Option.getD_some]
  · simp only [normalizePersonaResponse, getField, lookupKey_setKey_self, Option.getD_some]

/-- C4: the concrete round trip — the snake_case data key is rewritten
to camelCase, the converted field is copied to the top level, and `id`
and `type` are preserved. -/
theorem claim_roundtrip_campaign :
    normalizeCampaignResponse (.obj [("id", .str "1"), ("type", .str "email"),
      ("data", .obj [("target_persona_name", .str "VP Sales")])]) =
    .obj [("id", .str "1"), ("type", .str "email"),
      ("data", .obj [("targetPersonaName", .str "VP Sales")]),
      ("targetPersonaName", .str "VP Sales")] := rfl

/-- C5: when the authenticated flag does not flip, the auth-change
effect leaves the draft store and the query cache unchanged. -/
theorem claim_auth_noop_without_flip (prev curr : AuthState) (ds : DraftStore)
    (qc : QueryCache) (h : prev.isAuthenticated = curr.isAuthenticated) :
    authChangeEffect prev curr ds qc = (ds, qc, curr) := by
  unfold authChangeEffect
  rw [h]
  simp

/-- C5 witness: a same-state call over a nonempty draft store and cache
is a no-op. -/
theorem claim_auth_noop_without_flip_witness :
    (({ isAuthenticated := true, token := some "t1", userInfo := none } : AuthState).isAuthenticated =
      ({ isAuthenticated := true, token := some "t2", userInfo := none } : AuthState).isAuthenticated) ∧
    authChangeEffect { isAuthenticated := true, token := some "t1", userInfo := none }
      { isAuthenticated := true, token := some "t2", userInfo := none }
      [("persona", [.null])] ⟨[(["company"], .null)], []⟩ =
      ([("persona", [.null])], ⟨[(["company"], .null)], []⟩,
        { isAuthenticated := true, token := some "t2", userInfo := none }) :=
  ⟨by decide, claim_auth_noop_without_flip _ _ _ _ (by decide)⟩

/-- C6 counterexample: all three primary headers are present (the limit
header with an empty value), yet the parser returns null — presence
alone is not enough, the values must also be nonempty. -/
theorem claim_rate_limit_cex :
    parseRateLimitHeaders ⟨some "", some "99", some "1700000000", none⟩ = none ∧
    (some "" : Option String) ≠ none ∧ (some "99" : Option String) ≠ none ∧
    (some "1700000000" : Option String) ≠ none := by
  refine ⟨by decide, by simp, by simp, by simp⟩

/-- C6 amended: a structured value is returned exactly when all three
primary header values are truthy (present and nonempty); an absent
primary header yields null, and the two concrete vectors of the claim
hold as stated. -/
theorem claim_rate_limit_parse (h : RateLimitHeaders) :
    ((parseRateLimitHeaders h).isSome = true ↔
      (strTruthy h.limit = true ∧ strTruthy h.remaining = true ∧ strTruthy h.reset = true)) ∧
    (h.remaining = none → parseRateLimitHeaders h = none) ∧
    parseRateLimitHeaders ⟨some "100", some "99", some "1700000000", none⟩ =
      some ⟨some 100, some 99, some 1700000000, none⟩ ∧
    parseRateLimitHeaders ⟨some "100", none, some "1700000000", none⟩ = none ∧
    (∀ l r s, parseRateLimitHeaders ⟨some l, some r, some s, some ""⟩ =
      parseRateLimitHeaders ⟨some l, some r, some s, none⟩) ∧
    parseRateLimitHeaders ⟨some "100", some "99", some "1700000000", some "7"⟩ =
      some ⟨some 100, some 99, some 1700000000, some (some 7)⟩ := by
  obtain ⟨hl, hr, hs, ht⟩ := h
  refine ⟨?_, ?_, by decide, by decide, fun l r s => rfl, by decide⟩
  · cases hl with
    | none => simp [parseRateLimitHeaders, strTruthy]
    | some l =>
      cases hr with
      | none => simp [parseRateLimitHeaders, strTruthy]
      | some r =>
        cases hs with
        | none => simp [parseRateLimitHeaders, strTruthy]
        | some s =>
          simp only [parseRateLimitHeaders, strTruthy]
          by_cases hcond : (l != "" && (r != "" && s != "")) = true
          · rw [Bool.and_eq_true, Bool.and_eq_true] at hcond
            simp [hcond.1, hcond.2.1, hcond.2.2]
          · rw [Bool.and_eq_true, Bool.and_eq_true] at hcond
            push_neg at hcond
            by_cases h1 : (l != "") = true
            · by_cases h2 : (r != "") = true
              · have h3 := hcond h1 h2
                simp [h1, h2, h3]
              · simp [h2]
            · simp [h1]
  · intro heq
    cases hl <;> simp_all [parseRateLimitHeaders]

/-- C7: local lookup misses are non-exceptional and atomic — updating a
persona of an unknown account, or an unknown persona of a found account,
performs no write (`none`: the stored list is untouched), and reading
personas of an unknown account yields the empty list. -/
theorem claim_local_miss_noop (store : List TargetAccount) (aid : String) (p : PersonaRec) :
    ((match store.find? (fun a => a.id == aid) with
      | none => True
      | some a =>
        match a.personas with
        | none => True
        | some ps => ∀ q ∈ ps, q.id ≠ p.id) →
      updatePersonaForTargetAccount store aid p = none) ∧
    ((∀ a ∈ store, a.id ≠ aid) → getPersonasForTargetAccount store aid = []) := by
  constructor
  · intro h
    cases hfind : store.find? (fun a => a.id == aid) with
    | none =>
      unfold updatePersonaForTargetAccount
      rw [hfind]
    | some a =>
      rw [hfind] at h
      replace h : (match a.personas with
        | none => True
        | some ps => ∀ q ∈ ps, q.id ≠ p.id) := h
      have hstep : updatePersonaForTargetAccount store aid p =
          (match a.personas with
          | none => none
          | some personas =>
            match personas.findIdx? fun q => q.id == p.id with
            | none => none
            | some pidx =>
              some (saveTargetAccount store
                { a with personas := some (personas.set pidx p) })) := by
        unfold updatePersonaForTargetAccount
        rw [hfind]
      rw [hstep]
      cases hper : a.personas with
      | none => rfl
      | some ps =>
        rw [hper] at h
        replace h : ∀ q ∈ ps, q.id ≠ p.id := h
        have hidx : ps.findIdx? (fun q => q.id == p.id) = none := by
          rw [List.findIdx?_eq_none_iff]
          intro q hq
          simpa using h q hq
        show (match ps.findIdx? (fun q => q.id == p.id) with
          | none => (none : Option (List TargetAccount))
          | some pidx =>
            some (saveTargetAccount store
              { a with personas := some (ps.set pidx p) })) = none
        rw [hidx]
  · intro h
    unfold getPersonasForTargetAccount
    have hfind : store.find? (fun a => a.id == aid) = none := by
      rw [List.find?_eq_none]
      intro a ha
      simpa using h a ha
    rw [hfind]

/-- C7 witness: a persona-id miss on a found account writes nothing, and
an unknown account id reads as the empty persona list. -/
theorem claim_local_miss_noop_witness :
    updatePersonaForTargetAccount
      [{ id := "a1", name := "Acme", personas := some [{ id := "p1", payload := .null }],
         payload := .null }] "a1" { id := "p9", payload := .null } = none ∧
    getPersonasForTargetAccount
      [{ id := "a1", name := "Acme", personas := some [{ id := "p1", payload := .null }],
         payload := .null }] "zz" = [] :=
  ⟨(claim_local_miss_noop _ "a1" _).1 (by
      show ∀ q ∈ [({ id := "p1", payload := JVal.null } : PersonaRec)],
        q.id ≠ ({ id := "p9", payload := JVal.null } : PersonaRec).id
      decide),
   (claim_local_miss_noop _ "zz" { id := "p9", payload := .null }).2 (by decide)⟩

/-- C8 counterexample: the claim that reading the durable store never
fails is false — a present but corrupted stored value reaches
`JSON.parse` with no try/catch, and the parse error propagates. -/
theorem claim_stored_read_cex :
    exceptIsOk (getStoredTargetAccounts (some "not json")) = false ∧
    (some "not json" : Option String) ≠ none :=
  ⟨rfl, by simp⟩

/-- C8 amended: reading the durable store yields the empty list when no
value (or an empty string) is stored; for any other stored value the
result is whatever `JSON.parse` produces, and a parse failure
propagates as an exception. -/
theorem claim_stored_read_empty (stored : Option String)
    (h : stored = none ∨ stored = some "") :
    getStoredTargetAccounts stored = .ok (.arr []) := by
  rcases h with h | h <;> subst h <;> rfl

/-- C8 witness: the absent-value read. -/
theorem claim_stored_read_empty_witness :
    ((none : Option String) = none ∨ (none : Option String) = some "") ∧
    getStoredTargetAccounts none = .ok (.arr []) :=
  ⟨Or.inl rfl, claim_stored_read_empty none (Or.inl rfl)⟩

/-- C9: `saveTargetAccount` is an upsert framing all other entries —
entries with a different id are kept unchanged in the same relative
order, exactly one entry carries the saved id (the saved account), and
the distinct-ids invariant is preserved; `deleteTargetAccount` removes
exactly the entries with the given id and preserves the invariant. -/
theorem claim_upsert_frame (store : List TargetAccount) (a : TargetAccount) (id : String)
    (hnd : (store.map TargetAccount.id).Nodup) :
    (saveTargetAccount store a).filter (fun p => p.id != a.id) =
      store.filter (fun p => p.id != a.id) ∧
    (saveTargetAccount store a).filter (fun p => p.id == a.id) = [a] ∧
    ((saveTargetAccount store a).map TargetAccount.id).Nodup ∧
    (store.findIdx? (fun p => p.id == a.id) = none →
      saveTargetAccount store a = store ++ [a]) ∧
    (∀ i, store.findIdx? (fun p => p.id == a.id) = some i →
      saveTargetAccount store a = store.set i a) ∧
    (∀ b, b ∈ deleteTargetAccount store id ↔ (b ∈ store ∧ b.id ≠ id)) ∧
    ((deleteTargetAccount store id).map TargetAccount.id).Nodup := by
  refine ⟨saveTargetAccount_filter_ne store a, saveTargetAccount_filter_eq store a hnd,
    saveTargetAccount_nodup store a hnd, ?_, ?_, ?_, ?_⟩
  · intro hf
    unfold saveTargetAccount
    rw [hf]
  · intro i hf
    unfold saveTargetAccount
    rw [hf]
  · intro b
    unfold deleteTargetAccount
    rw [List.mem_filter]
    simp [bne_iff_ne]
  · unfold deleteTargetAccount
    exact List.Nodup.sublist ((List.filter_sublist store).map TargetAccount.id) hnd

/-- C9 witness: upsert and delete over a concrete two-entry store with
distinct ids. -/
theorem claim_upsert_frame_witness :
    ((([{ id := "a1", name := "A", personas := none, payload := .null },
        { id := "a2", name := "B", personas := none, payload := .null }] :
        List TargetAccount).map TargetAccount.id).Nodup) ∧
    ((saveTargetAccount
        [{ id := "a1", name := "A", personas := none, payload := .null },
         { id := "a2", name := "B", personas := none, payload := .null }]
        { id := "a2", name := "B2", personas := none, payload := .null }).filter
      (fun p => p.id == "a2") =
      [{ id := "a2", name := "B2", personas := none, payload := .null }]) := by
  refine ⟨by decide, ?_⟩
  have h := claim_upsert_frame
    [{ id := "a1", name := "A", personas := none, payload := .null },
     { id := "a2", name := "B", personas := none, payload := .null }]
    { id := "a2", name := "B2", personas := none, payload := .null } "a1" (by decide)
  exact h.2.1

/-- C10: endpoint routing degrades to demo mode whenever the credential
is incomplete — the base path is `/api` exactly when the state is
authenticated with a non-null nonempty token, and `/demo` otherwise. -/
theorem claim_api_base_path (s : AuthState) :
    (getApiBasePath s = "/api" ↔
      (s.isAuthenticated = true ∧ ∃ t, s.token = some t ∧ t ≠ "")) ∧
    (getApiBasePath s = "/demo" ↔
      ¬ (s.isAuthenticated = true ∧ ∃ t, s.token = some t ∧ t ≠ "")) := by
  obtain ⟨auth, tok, ui⟩ := s
  have hne : ("/demo" : String) ≠ "/api" := by decide
  cases auth with
  | false =>
    cases tok <;>
      simp [getApiBasePath, shouldUseAuthenticatedEndpoints, strTruthy, hne]
  | true =>
    cases tok with
    | none => simp [getApiBasePath, shouldUseAuthenticatedEndpoints, strTruthy, hne]
    | some t =>
      by_cases ht : t = ""
      · subst ht
        simp [getApiBasePath, shouldUseAuthenticatedEndpoints, strTruthy, hne]
      · simp [getApiBasePath, shouldUseAuthenticatedEndpoints, strTruthy, ht,
          hne.symm]

/-- C6 witness: the absent-remaining-header case of the amended
rate-limit theorem at a concrete input. -/
theorem claim_rate_limit_parse_witness :
    parseRateLimitHeaders ⟨some "100", none, some "1700000000", none⟩ = none :=
  (claim_rate_limit_parse ⟨some "100", none, some "1700000000", none⟩).2.1 rfl
